import Mathlib

/-!
Verification of the GitTide commit-graph layout and rendering engine.

The definitions below are a shallow embedding of the engine found in the
GitTide React component: the connector-geometry function `calculatePath`,
the refresh/reconcile handler `refreshData`, the selection click handler
`handleCommitClick`, the repository-close handler `handleCloseRepository`,
and the two SVG render passes over the commit history (per-row vertical
branch segments and primary-parent connector paths).  Pixel coordinates are
modelled as rationals; SVG path strings are modelled as lists of path
commands carrying the same coordinates the source interpolates into the
string.  Display-only metadata (message, author, timestamp, colors, CSS)
is omitted; the geometry and the state transitions are kept exactly.

A lane-assignment algorithm (`assignLanes`) has no implementation in the
repository sources (commit lanes arrive precomputed in each record's
`position` field from the backend); it is modelled from the specification
text, as marked on the corresponding definitions.
-/

/-- A commit record as consumed by the graph engine: the fields the engine
logic reads (`id`, `parents`, `position`); display-only metadata fields of
the source records (message, author, timestamp, branch, color, type) are
omitted from the embedding. -/
structure Commit where
  id : String
  parents : List String
  position : Nat
  deriving DecidableEq, Repr

/-- A branch entry as returned by the transport (`get_branches`). -/
structure Branch where
  name : String
  is_head : Bool
  deriving DecidableEq, Repr

/-- One SVG path command.  `calculatePath` in the source emits an SVG path
string; each branch of the function interpolates fixed commands `M`, `L`,
`Q` with computed coordinates, embedded here as this inductive. -/
inductive SvgCmd where
  | M (x y : ℚ)
  | L (x y : ℚ)
  | Q (cx cy x y : ℚ)
  deriving DecidableEq, Repr

/-- `calculatePath(startX, startY, endX, endY)`: the connector-geometry
routine of the engine.  Straight vertical segment when the x coordinates
coincide; a two-quadratic S-curve when the vertical distance is below two
node radii; otherwise a corner curve (vertical run, quadratic bend, then a
horizontal run into the end point). -/
def calculatePath (startX startY endX endY : ℚ) : List SvgCmd :=
  let radius : ℚ := 10
  let minVerticalDist : ℚ := radius * 2
  let verticalDist : ℚ := |endY - startY|
  if startX = endX then
    [SvgCmd.M startX startY, SvgCmd.L endX endY]
  else if verticalDist < minVerticalDist then
    let midY : ℚ := (startY + endY) / 2
    [SvgCmd.M startX startY,
     SvgCmd.Q startX midY ((startX + endX) / 2) midY,
     SvgCmd.Q endX midY endX endY]
  else
    let directionY : ℚ := if endY > startY then 1 else -1
    let cornerY : ℚ := if directionY = 1 then endY - radius else endY + radius
    [SvgCmd.M startX startY,
     SvgCmd.L startX cornerY,
     SvgCmd.Q startX endY (startX + (if endX > startX then radius else -radius)) endY,
     SvgCmd.L endX endY]

/-- Node x coordinate of a lane: `x = 40 + position * 20` in the renderer. -/
def laneX (lane : Nat) : ℚ := 40 + (lane : ℚ) * 20

/-- Node y coordinate of a row: `y = index * 80 + 40` in the renderer. -/
def rowY (row : Nat) : ℚ := (row : ℚ) * 80 + 40

/-- A straight line element of the rendered scene (the per-row vertical
branch segments emitted by the first render pass). -/
structure Seg where
  x1 : ℚ
  y1 : ℚ
  x2 : ℚ
  y2 : ℚ
  deriving DecidableEq, Repr

/-- First render pass, per row: if the commit at the next row occupies the
same lane (`nextCommit.position === commit.position`), emit a vertical
segment of height one row (80px) below this commit's node. -/
def segmentAt (h : List Commit) (i : Nat) (c : Commit) : Option Seg :=
  match h[i + 1]? with
  | some nextCommit =>
    if nextCommit.position = c.position then
      some ⟨laneX c.position, rowY i, laneX c.position, rowY i + 80⟩
    else none
  | none => none

/-- Accumulate the per-row vertical segments, starting at row `i`. -/
def segmentsFrom (h : List Commit) : Nat → List Commit → List Seg
  | _, [] => []
  | i, c :: rest =>
    match segmentAt h i c with
    | some s => s :: segmentsFrom h (i + 1) rest
    | none => segmentsFrom h (i + 1) rest

/-- All vertical branch segments of the scene for a displayed history. -/
def branchSegments (h : List Commit) : List Seg := segmentsFrom h 0 h

/-- Second render pass, per row: if the commit has at least one parent, look
up only `parents[0]` in the displayed history; if found, compute both node
positions and emit a connector path unless the two nodes share an x
coordinate and are at adjacent rows.  The emitted entry records the child
id, the parent id and the connector geometry. -/
def connectorAt (h : List Commit) (i : Nat) (c : Commit) :
    Option (String × String × List SvgCmd) :=
  c.parents.head?.bind fun p0 =>
    (h.find? (fun q => decide (q.id = p0))).bind fun parentCommit =>
      if laneX c.position ≠ laneX parentCommit.position ∨
          ((h.findIdx (fun q => decide (q.id = parentCommit.id)) : ℤ) - (i : ℤ)).natAbs > 1
      then
        some (c.id, parentCommit.id,
          calculatePath (laneX c.position) (rowY i) (laneX parentCommit.position)
            (rowY (h.findIdx (fun q => decide (q.id = parentCommit.id)))))
      else none

/-- Accumulate the connector paths, starting at row `i`. -/
def connectorsFrom (h : List Commit) : Nat → List Commit → List (String × String × List SvgCmd)
  | _, [] => []
  | i, c :: rest =>
    match connectorAt h i c with
    | some e => e :: connectorsFrom h (i + 1) rest
    | none => connectorsFrom h (i + 1) rest

/-- All parent-connector paths of the scene for a displayed history. -/
def connectors (h : List Commit) : List (String × String × List SvgCmd) :=
  connectorsFrom h 0 h

/-- The engine state held by the GitTide component: current repository path,
branch list, displayed commit history, last error, loading flag and the
selected commit (the `autoRefresh` flag only gates the timer and is
omitted). -/
structure AppState where
  currentRepo : Option String
  branches : List Branch
  gitHistory : List Commit
  error : Option String
  loading : Bool
  selectedCommit : Option Commit
  deriving DecidableEq, Repr

/-- The component's initial state: everything empty, nothing selected. -/
def initialState : AppState := ⟨none, [], [], none, false, none⟩

/-- The completed outcome of one refresh: either both transport calls
succeeded (`Promise.all` resolves with the branch list and the history,
either of which may be null), or one of them threw and the whole refresh
rejects with an error message. -/
inductive FetchResult where
  | ok (branchesData : Option (List Branch)) (historyData : Option (List Commit))
  | err (message : String)
  deriving DecidableEq, Repr

/-- `refreshData`: on success, replace the branch list and the history with
the fetched data (null coalesced to the empty list) and clear the error; on
failure, record the error and change nothing else.  The `finally` clause
clears the loading flag on both outcomes.  The selection is not touched on
either path. -/
def refreshData (s : AppState) (r : FetchResult) : AppState :=
  match r with
  | FetchResult.ok branchesData historyData =>
    { s with branches := branchesData.getD []
             gitHistory := historyData.getD []
             error := none
             loading := false }
  | FetchResult.err msg =>
    { s with error := some msg, loading := false }

/-- `handleCommitClick`: toggle — if the clicked commit's id equals the
currently selected commit's id, clear the selection, otherwise select the
clicked commit. -/
def handleCommitClick (s : AppState) (commit : Commit) : AppState :=
  { s with selectedCommit :=
      if s.selectedCommit.map Commit.id = some commit.id then none else some commit }

/-- `handleCloseRepository`: clear the repository path, branch list, commit
history, selection and error. -/
def handleCloseRepository (s : AppState) : AppState :=
  { s with currentRepo := none
           branches := []
           gitHistory := []
           selectedCommit := none
           error := none }

/-- A user-visible engine event: a commit click or a completed refresh. -/
inductive Event where
  | click (commit : Commit)
  | refresh (result : FetchResult)
  deriving DecidableEq, Repr

/-- Apply one event to the engine state. -/
def stepEvent (s : AppState) (e : Event) : AppState :=
  match e with
  | Event.click c => handleCommitClick s c
  | Event.refresh r => refreshData s r

/-- Apply a finite sequence of events to the engine state. -/
def runEvents (s : AppState) (es : List Event) : AppState := es.foldl stepEvent s

/-- Modelled from the spec: a commit record as consumed by lane assignment
(the repository ships no lane-assignment implementation under src/ — each
rendered commit arrives with a precomputed `position` — so `assignLanes` of
spec §4.1 is modelled from the specification text). -/
structure CommitRecord where
  id : String
  parentIds : List String
  deriving DecidableEq, Repr

/-- Modelled from the spec: the lowest-numbered unused lane in the active
lane vector (`none` marks a freed slot; if every slot is occupied the next
lane is the one past the end), per §4.1 "assign the lowest-numbered unused
lane (reuse freed lane numbers before allocating a new one)". -/
def lowestFree : List (Option String) → Nat
  | [] => 0
  | none :: _ => 0
  | some _ :: rest => lowestFree rest + 1

/-- Modelled from the spec: the first active lane whose expected-next-id
equals the given id, per §4.1 "if some active lane's expected-next-id
equals `c.id`, assign `c` to that lane". -/
def findLane (id : String) : List (Option String) → Option Nat
  | [] => none
  | s :: rest => if s = some id then some 0 else (findLane id rest).map (· + 1)

/-- Modelled from the spec: write a slot of the active lane vector, growing
the vector by one slot when the index is the one past the end (the only
out-of-range index the algorithm produces). -/
def setSlot (a : List (Option String)) (i : Nat) (v : Option String) :
    List (Option String) :=
  if i < a.length then a.set i v else a ++ [v]

/-- Modelled from the spec: §4.1's handling of an additional (merge) parent
— "if that parent does not already have an expected continuation in an
active lane, open a new lane for it; otherwise leave its existing lane
as-is". -/
def openParent (a : List (Option String)) (p : String) : List (Option String) :=
  match findLane p a with
  | some _ => a
  | none => setSlot a (lowestFree a) (some p)

/-- Modelled from the spec: lane-assignment state — the active lane vector
(slot `i` holds the id the lane expects next, `none` for a freed slot) and
the accumulated id-to-lane assignment in display order. -/
structure LaneState where
  active : List (Option String)
  assignment : List (String × Nat)
  deriving DecidableEq, Repr

/-- Modelled from the spec: process one commit per §4.1 — a commit listing
itself as a parent is rejected and excluded from layout; otherwise the
commit takes the lane expecting its id (or the lowest free lane), its slot
is overwritten with its primary parent (`parentIds.head?`, so an empty
parent list retires the lane), and each additional merge parent without an
expected continuation opens a new lane. -/
def laneStep (st : LaneState) (c : CommitRecord) : LaneState :=
  if c.id ∈ c.parentIds then st
  else
    let lane := (findLane c.id st.active).getD (lowestFree st.active)
    let a1 := setSlot st.active lane c.parentIds.head?
    let a2 := c.parentIds.tail.foldl openParent a1
    ⟨a2, st.assignment ++ [(c.id, lane)]⟩

/-- Modelled from the spec: `assignLanes` — process the commits in display
order starting from no active lanes and no assignment. -/
def assignLanes (cs : List CommitRecord) : LaneState :=
  cs.foldl laneStep ⟨[], []⟩

/-- Number of occupied (`some`) slots of an active lane vector. -/
def someCount : List (Option String) → Nat
  | [] => 0
  | some _ :: rest => someCount rest + 1
  | none :: rest => someCount rest

/-- Modelled from the spec: the number of concurrently open branches at a
row — the lanes holding an expected continuation once the row is processed,
plus the row's own lane when the commit retired it (a root commit still
occupies its lane at its own row). -/
def rowWidth (st : LaneState) (c : CommitRecord) : Nat :=
  let lane := (findLane c.id st.active).getD (lowestFree st.active)
  let a2 := (laneStep st c).active
  someCount a2 + (if a2.getD lane none = none then 1 else 0)

/-- Modelled from the spec: the maximum number of concurrently open
branches over all rows of a commit sequence. -/
def maxWidth : LaneState → List CommitRecord → Nat
  | _, [] => 0
  | st, c :: rest => max (rowWidth st c) (maxWidth (laneStep st c) rest)

/-- Concrete root commit `a` at lane 0. -/
def commitA : Commit := ⟨"a", [], 0⟩

/-- Concrete root commit `b` at lane 0. -/
def commitB : Commit := ⟨"b", [], 0⟩

/-- Concrete merge commit with the two parents `a` and `b`. -/
def mergeM : Commit := ⟨"m", ["a", "b"], 0⟩

/-- Concrete root commit `b` at lane 1. -/
def commitBLane1 : Commit := ⟨"b", [], 1⟩

/-- A displayed history whose first commit is a merge with both parents
present in the store. -/
def historyMerge : List Commit := [mergeM, commitA, commitBLane1]

/-- Concrete merge commit whose primary parent sits three rows below in the
same lane. -/
def mergeTwo : Commit := ⟨"m", ["p0", "p1"], 0⟩

/-- Filler commit between a merge and its primary parent. -/
def fillOne : Commit := ⟨"x1", ["p0"], 1⟩

/-- Filler commit between a merge and its primary parent. -/
def fillTwo : Commit := ⟨"x2", ["p0"], 1⟩

/-- Concrete primary parent at lane 0. -/
def primaryParent : Commit := ⟨"p0", [], 0⟩

/-- A displayed history where the merge commit's primary parent is in the
same lane at row distance 3. -/
def historyScenarioB : List Commit := [mergeTwo, fillOne, fillTwo, primaryParent]

/-- Concrete commit `x` at lane 0, with no parents. -/
def commitX : Commit := ⟨"x", [], 0⟩

/-- Concrete commit `y` at lane 0, not a parent of `x`. -/
def commitY : Commit := ⟨"y", [], 0⟩

/-- Two unrelated commits at consecutive rows in the same lane. -/
def historyXY : List Commit := [commitX, commitY]

/-- Concrete lane-assignment input: a merge of two branches. -/
def recM : CommitRecord := ⟨"m", ["a", "b"]⟩

/-- Concrete lane-assignment input: left branch commit. -/
def recA : CommitRecord := ⟨"a", ["c"]⟩

/-- Concrete lane-assignment input: right branch commit. -/
def recB : CommitRecord := ⟨"b", ["c"]⟩

/-- Concrete lane-assignment input: common root. -/
def recC : CommitRecord := ⟨"c", []⟩

/-- Concrete lane-assignment input sequence: a merge, its two branch
parents, and their common root. -/
def recList : List CommitRecord := [recM, recA, recB, recC]

/-- Claim C5: reconciliation is idempotent — applying the same refresh
result a second time yields exactly the same engine state (commit store,
branch list, lane data inside the records, and selection) as applying it
once. -/
theorem refreshData_idempotent (s : AppState) (r : FetchResult) :
    refreshData (refreshData s r) r = refreshData s r := by
  cases r <;> rfl

/-- Claim C6: reconciliation is atomic with respect to failure — when the
refresh's transport call fails, the commit store, branch list (and with
them the lane data), selection and current repository are left exactly as
they were before the call. -/
theorem refreshData_failure_atomic (s : AppState) (msg : String) :
    (refreshData s (FetchResult.err msg)).gitHistory = s.gitHistory ∧
    (refreshData s (FetchResult.err msg)).branches = s.branches ∧
    (refreshData s (FetchResult.err msg)).selectedCommit = s.selectedCommit ∧
    (refreshData s (FetchResult.err msg)).currentRepo = s.currentRepo :=
  ⟨rfl, rfl, rfl, rfl⟩

/-- Claim C8: closing the repository resets the engine — the commit store
and branch list become empty, the selection becomes none, and the current
repository and error are cleared. -/
theorem handleCloseRepository_resets (s : AppState) :
    (handleCloseRepository s).gitHistory = [] ∧
    (handleCloseRepository s).branches = [] ∧
    (handleCloseRepository s).selectedCommit = none ∧
    (handleCloseRepository s).currentRepo = none ∧
    (handleCloseRepository s).error = none :=
  ⟨rfl, rfl, rfl, rfl, rfl⟩

/-- Claim C10: a refresh that succeeds with null transport data replaces
the commit store and branch list with the empty sequence (the graph is
wiped rather than treated as "no new data"), and the selection is not
cleared by this replacement. -/
theorem refreshData_null_wipes (s : AppState) :
    (refreshData s (FetchResult.ok none none)).gitHistory = [] ∧
    (refreshData s (FetchResult.ok none none)).branches = [] ∧
    (refreshData s (FetchResult.ok none none)).selectedCommit = s.selectedCommit :=
  ⟨rfl, rfl, rfl⟩

/-- Claim C4: the selection toggle — clicking with no selection selects the
clicked commit; clicking the commit whose id is currently selected clears
the selection; clicking a commit with a different id selects the clicked
commit. -/
theorem handleCommitClick_toggle (s : AppState) (c : Commit) :
    (s.selectedCommit = none → (handleCommitClick s c).selectedCommit = some c) ∧
    (∀ a, s.selectedCommit = some a → a.id = c.id →
      (handleCommitClick s c).selectedCommit = none) ∧
    (∀ a, s.selectedCommit = some a → a.id ≠ c.id →
      (handleCommitClick s c).selectedCommit = some c) := by
  refine ⟨fun h => ?_, fun a h hid => ?_, fun a h hid => ?_⟩
  · simp [handleCommitClick, h]
  · simp [handleCommitClick, h, hid]
  · simp [handleCommitClick, h, hid]

/-- Witness for C4: from the initial state, a click selects commit `a`, a
second click on `a` clears the selection, and a click on `b` while `a` is
selected selects `b`. -/
theorem handleCommitClick_toggle_witness :
    (handleCommitClick initialState commitA).selectedCommit = some commitA ∧
    (handleCommitClick (handleCommitClick initialState commitA) commitA).selectedCommit
      = none ∧
    (handleCommitClick (handleCommitClick initialState commitA) commitB).selectedCommit
      = some commitB := by
  refine ⟨(handleCommitClick_toggle initialState commitA).1 rfl, ?_, ?_⟩
  · exact (handleCommitClick_toggle (handleCommitClick initialState commitA) commitA).2.1
      commitA (by decide) rfl
  · exact (handleCommitClick_toggle (handleCommitClick initialState commitA) commitB).2.2
      commitA (by decide) (by decide)

/-- Counterexample to claim C2 as stated: a refresh whose batch contains
commit `a`, a click on `a`, then a refresh whose batch no longer contains
`a` leaves `a` selected even though no commit with its id remains in the
store — the reconciliation does not clear the selection. -/
theorem selection_dangles_after_removal :
    commitA ∈ (refreshData initialState
        (FetchResult.ok (some []) (some [commitA]))).gitHistory ∧
    (runEvents initialState
        [Event.refresh (FetchResult.ok (some []) (some [commitA])),
         Event.click commitA,
         Event.refresh (FetchResult.ok (some []) (some [commitB]))]).selectedCommit
      = some commitA ∧
    ∀ c ∈ (runEvents initialState
        [Event.refresh (FetchResult.ok (some []) (some [commitA])),
         Event.click commitA,
         Event.refresh (FetchResult.ok (some []) (some [commitB]))]).gitHistory,
      c.id ≠ commitA.id := by
  decide

/-- Claim C2 as amended: after every finite sequence of commit clicks and
reconciliations at most one commit is selected, and a further
reconciliation never changes the selection — in particular a batch that no
longer contains the selected commit leaves that commit selected (possibly
dangling) instead of clearing the selection. -/
theorem selection_after_events (s : AppState) (es : List Event) :
    (runEvents s es).selectedCommit.toList.length ≤ 1 ∧
    ∀ r, (refreshData (runEvents s es) r).selectedCommit
      = (runEvents s es).selectedCommit := by
  constructor
  · cases (runEvents s es).selectedCommit <;> simp
  · intro r; cases r <;> rfl

/-- Two lanes have the same node x coordinate iff they are the same lane. -/
theorem laneX_inj (a b : Nat) : laneX a = laneX b ↔ a = b := by
  unfold laneX
  constructor
  · intro h
    have h2 : (a : ℚ) = b := by linarith
    exact_mod_cast h2
  · intro h; rw [h]

/-- The node x coordinate is strictly monotone in the lane number. -/
theorem laneX_lt (a b : Nat) : laneX a < laneX b ↔ a < b := by
  unfold laneX
  constructor
  · intro h
    have h2 : (a : ℚ) < b := by linarith
    exact_mod_cast h2
  · intro h
    have h2 : (a : ℚ) < b := by exact_mod_cast h
    linarith

/-- The node y coordinate is strictly monotone in the row number. -/
theorem rowY_lt (a b : Nat) : rowY a < rowY b ↔ a < b := by
  unfold rowY
  constructor
  · intro h
    have h2 : (a : ℚ) < b := by linarith
    exact_mod_cast h2
  · intro h
    have h2 : (a : ℚ) < b := by exact_mod_cast h
    linarith

/-- Claim C1: the connector routing cases.  For a child and a parent at
given rows and lanes: equal lanes give a straight vertical segment between
the two nodes; different lanes with vertical distance strictly below two
node radii (20px) give a single symmetric S-curve whose join point is the
horizontal and vertical midpoint between child and parent; otherwise a
corner curve — a vertical run from the child to one node radius before the
parent's row, a quadratic bend one radius toward the parent's lane, and a
horizontal run into the parent. -/
theorem calculatePath_routing (childRow childLane parentRow parentLane : Nat) :
    (childLane = parentLane →
      calculatePath (laneX childLane) (rowY childRow) (laneX parentLane) (rowY parentRow) =
        [SvgCmd.M (laneX childLane) (rowY childRow),
         SvgCmd.L (laneX parentLane) (rowY parentRow)]) ∧
    (childLane ≠ parentLane → |rowY parentRow - rowY childRow| < 20 →
      calculatePath (laneX childLane) (rowY childRow) (laneX parentLane) (rowY parentRow) =
        [SvgCmd.M (laneX childLane) (rowY childRow),
         SvgCmd.Q (laneX childLane) ((rowY childRow + rowY parentRow) / 2)
           ((laneX childLane + laneX parentLane) / 2) ((rowY childRow + rowY parentRow) / 2),
         SvgCmd.Q (laneX parentLane) ((rowY childRow + rowY parentRow) / 2)
           (laneX parentLane) (rowY parentRow)]) ∧
    (childLane ≠ parentLane → 20 ≤ |rowY parentRow - rowY childRow| →
      calculatePath (laneX childLane) (rowY childRow) (laneX parentLane) (rowY parentRow) =
        [SvgCmd.M (laneX childLane) (rowY childRow),
         SvgCmd.L (laneX childLane)
           (if childRow < parentRow then rowY parentRow - 10 else rowY parentRow + 10),
         SvgCmd.Q (laneX childLane) (rowY parentRow)
           (laneX childLane + (if childLane < parentLane then 10 else -10)) (rowY parentRow),
         SvgCmd.L (laneX parentLane) (rowY parentRow)]) := by
  refine ⟨fun he => ?_, fun hne hlt => ?_, fun hne hge => ?_⟩
  · subst he
    simp [calculatePath]
  · have hx : laneX childLane ≠ laneX parentLane := fun h => hne ((laneX_inj _ _).mp h)
    have hlt2 : |rowY parentRow - rowY childRow| < 10 * 2 := by
      rw [show ((10 : ℚ) * 2) = 20 by norm_num]; exact hlt
    simp only [calculatePath, if_neg hx, if_pos hlt2]
  · have hx : laneX childLane ≠ laneX parentLane := fun h => hne ((laneX_inj _ _).mp h)
    have hnotlt : ¬ |rowY parentRow - rowY childRow| < 10 * 2 := by
      rw [show ((10 : ℚ) * 2) = 20 by norm_num]; exact not_lt.mpr hge
    simp only [calculatePath, if_neg hx, if_neg hnotlt]
    by_cases hr : childRow < parentRow
    · have hry : rowY childRow < rowY parentRow := (rowY_lt _ _).mpr hr
      by_cases hl : childLane < parentLane
      · have hlx : laneX childLane < laneX parentLane := (laneX_lt _ _).mpr hl
        simp [hr, hl, hry, hlx]
      · have hlx : ¬ laneX childLane < laneX parentLane := fun h => hl ((laneX_lt _ _).mp h)
        simp [hr, hl, hry, hlx]
    · have hry : ¬ rowY childRow < rowY parentRow := fun h => hr ((rowY_lt _ _).mp h)
      have hneg : ((-1 : ℚ)) ≠ 1 := by norm_num
      by_cases hl : childLane < parentLane
      · have hlx : laneX childLane < laneX parentLane := (laneX_lt _ _).mpr hl
        simp [hr, hl, hry, hlx, hneg]
      · have hlx : ¬ laneX childLane < laneX parentLane := fun h => hl ((laneX_lt _ _).mp h)
        simp [hr, hl, hry, hlx, hneg]

/-- Witness for C1: the three routing cases at concrete rows and lanes — a
same-lane pair three rows apart routes straight, a different-lane pair at
the same row routes as an S-curve, and a different-lane pair three rows
apart routes as a corner curve. -/
theorem calculatePath_routing_witness :
    (calculatePath (laneX 0) (rowY 0) (laneX 0) (rowY 3) =
      [SvgCmd.M (laneX 0) (rowY 0), SvgCmd.L (laneX 0) (rowY 3)]) ∧
    (calculatePath (laneX 0) (rowY 0) (laneX 1) (rowY 0) =
      [SvgCmd.M (laneX 0) (rowY 0),
       SvgCmd.Q (laneX 0) ((rowY 0 + rowY 0) / 2)
         ((laneX 0 + laneX 1) / 2) ((rowY 0 + rowY 0) / 2),
       SvgCmd.Q (laneX 1) ((rowY 0 + rowY 0) / 2) (laneX 1) (rowY 0)]) ∧
    (calculatePath (laneX 0) (rowY 0) (laneX 1) (rowY 3) =
      [SvgCmd.M (laneX 0) (rowY 0),
       SvgCmd.L (laneX 0) (if 0 < 3 then rowY 3 - 10 else rowY 3 + 10),
       SvgCmd.Q (laneX 0) (rowY 3)
         (laneX 0 + (if 0 < 1 then 10 else -10)) (rowY 3),
       SvgCmd.L (laneX 1) (rowY 3)]) :=
  ⟨(calculatePath_routing 0 0 3 0).1 rfl,
   (calculatePath_routing 0 0 0 1).2.1 (by decide) (by norm_num [rowY]),
   (calculatePath_routing 0 0 3 1).2.2 (by decide) (by norm_num [rowY])⟩

/-- A per-row segment produced at relative index `j` belongs to the
accumulated segment list starting at row `n`. -/
theorem segmentsFrom_mem (h : List Commit) (rest : List Commit) :
    ∀ (n j : Nat) (c : Commit) (s : Seg),
      rest[j]? = some c → segmentAt h (n + j) c = some s →
      s ∈ segmentsFrom h n rest := by
  induction rest with
  | nil => intro n j c s hj _; simp at hj
  | cons d rest ih =>
    intro n j c s hj hs
    cases j with
    | zero =>
      rw [List.getElem?_cons_zero] at hj
      injection hj with hj
      subst hj
      rw [Nat.add_zero] at hs
      simp [segmentsFrom, hs]
    | succ j =>
      rw [List.getElem?_cons_succ] at hj
      have hs2 : segmentAt h (n + 1 + j) c = some s := by
        rw [show n + 1 + j = n + (j + 1) by omega]
        exact hs
      have hmem := ih (n + 1) j c s hj hs2
      cases hseg : segmentAt h n d <;> simp [segmentsFrom, hseg, hmem]

/-- Claim C9: for any two commits at consecutive rows that share the same
lane, the rendered scene contains the vertical segment between them — the
hypothesis mentions only adjacency and lane equality, not the parent
relation. -/
theorem branchSegments_adjacent (h : List Commit) (i : Nat) (c nc : Commit)
    (hc : h[i]? = some c) (hnc : h[i + 1]? = some nc)
    (hpos : nc.position = c.position) :
    (⟨laneX c.position, rowY i, laneX c.position, rowY i + 80⟩ : Seg)
      ∈ branchSegments h := by
  have hseg : segmentAt h i c =
      some ⟨laneX c.position, rowY i, laneX c.position, rowY i + 80⟩ := by
    simp [segmentAt, hnc, hpos]
  have := segmentsFrom_mem h h 0 i c
    ⟨laneX c.position, rowY i, laneX c.position, rowY i + 80⟩ hc
    (by rw [Nat.zero_add]; exact hseg)
  exact this

/-- Witness for C9: in a history of two unrelated same-lane commits, the
lower commit is not a parent of the upper one, yet the vertical segment
between rows 0 and 1 is in the scene. -/
theorem branchSegments_adjacent_witness :
    commitY.id ∉ commitX.parents ∧
    (⟨laneX commitX.position, rowY 0, laneX commitX.position, rowY 0 + 80⟩ : Seg)
      ∈ branchSegments historyXY :=
  ⟨by decide, branchSegments_adjacent historyXY 0 commitX commitY rfl rfl rfl⟩

/-- Counterexample to claim C3 as stated: in a history whose first commit
is a merge with both parents present in the store, the scene contains no
connector at all — the second parent is never looked up, and the primary
parent, being same-lane and adjacent, is filtered out of the connector
pass. -/
theorem merge_second_parent_unconnected :
    mergeM.parents = ["a", "b"] ∧
    (historyMerge.find? (fun q => decide (q.id = "a"))).isSome ∧
    (historyMerge.find? (fun q => decide (q.id = "b"))).isSome ∧
    connectors historyMerge = [] := by
  refine ⟨by decide, by decide, by decide, ?_⟩
  have e1 : decide (("m" : String) = "a") = false := rfl
  have e2 : decide (("a" : String) = "a") = true := rfl
  have e3 : decide (("m" : String) = "m") = true := rfl
  have e4 : decide (("b" : String) = "a") = false := rfl
  norm_num [connectors, connectorsFrom, connectorAt, List.find?, List.findIdx,
    List.findIdx.go, historyMerge, mergeM, commitA, commitBLane1, laneX, rowY,
    e1, e2, e3, e4]

/-- A connector produced at relative index `j` belongs to the accumulated
connector list starting at row `n`. -/
theorem connectorsFrom_mem (h : List Commit) (rest : List Commit) :
    ∀ (n j : Nat) (c : Commit) (e : String × String × List SvgCmd),
      rest[j]? = some c → connectorAt h (n + j) c = some e →
      e ∈ connectorsFrom h n rest := by
  induction rest with
  | nil => intro n j c e hj _; simp at hj
  | cons d rest ih =>
    intro n j c e hj he
    cases j with
    | zero =>
      rw [List.getElem?_cons_zero] at hj
      injection hj with hj
      subst hj
      rw [Nat.add_zero] at he
      simp [connectorsFrom, he]
    | succ j =>
      rw [List.getElem?_cons_succ] at hj
      have he2 : connectorAt h (n + 1 + j) c = some e := by
        rw [show n + 1 + j = n + (j + 1) by omega]
        exact he
      have hmem := ih (n + 1) j c e hj he2
      cases hca : connectorAt h n d <;> simp [connectorsFrom, hca, hmem]

/-- Every accumulated connector comes from some row's `connectorAt`. -/
theorem connectorsFrom_mem_inv (h : List Commit) (rest : List Commit) :
    ∀ (n : Nat) (e : String × String × List SvgCmd), e ∈ connectorsFrom h n rest →
      ∃ j c, rest[j]? = some c ∧ connectorAt h (n + j) c = some e := by
  induction rest with
  | nil => intro n e he; simp [connectorsFrom] at he
  | cons d rest ih =>
    intro n e he
    cases hca : connectorAt h n d with
    | none =>
      simp only [connectorsFrom, hca] at he
      obtain ⟨j, c, hj, h2⟩ := ih (n + 1) e he
      exact ⟨j + 1, c, by simpa using hj,
        by rw [show n + (j + 1) = n + 1 + j by omega]; exact h2⟩
    | some e0 =>
      simp only [connectorsFrom, hca, List.mem_cons] at he
      rcases he with he | he
      · subst he
        exact ⟨0, d, by simp, by rw [Nat.add_zero]; exact hca⟩
      · obtain ⟨j, c, hj, h2⟩ := ih (n + 1) e he
        exact ⟨j + 1, c, by simpa using hj,
          by rw [show n + (j + 1) = n + 1 + j by omega]; exact h2⟩

/-- A connector entry records the child's id and the child's first
(primary) parent id: no other parent entry yields a connector. -/
theorem connectorAt_fields (h : List Commit) (i : Nat) (c : Commit)
    (e : String × String × List SvgCmd) (hc : connectorAt h i c = some e) :
    e.1 = c.id ∧ c.parents.head? = some e.2.1 := by
  rcases Option.bind_eq_some.mp hc with ⟨p0, hp, hc2⟩
  rcases Option.bind_eq_some.mp hc2 with ⟨parentCommit, hf, hc3⟩
  have hpa := List.find?_some hf
  have hid : parentCommit.id = p0 := by simpa using hpa
  by_cases hcond : laneX c.position ≠ laneX parentCommit.position ∨
      ((h.findIdx (fun q => decide (q.id = parentCommit.id)) : ℤ) - (i : ℤ)).natAbs > 1
  · rw [if_pos hcond] at hc3
    injection hc3 with hc4
    subst hc4
    exact ⟨rfl, by rw [hp, hid]⟩
  · rw [if_neg hcond] at hc3
    exact absurd hc3 (by simp)

/-- Claim C3 as amended: every connector in the scene is for a (child,
primary parent) edge — entries after the first in a parent list never
produce a connector — and a connector for the primary parent is present
whenever that parent is found in the store and the pair is not same-lane
row-adjacent. -/
theorem connectors_primary_only (h : List Commit) :
    (∀ e ∈ connectors h, ∃ (i : Nat) (c : Commit), h[i]? = some c ∧ e.1 = c.id ∧
      c.parents.head? = some e.2.1) ∧
    (∀ (i : Nat) (c parentCommit : Commit) (p0 : String),
      h[i]? = some c → c.parents.head? = some p0 →
      h.find? (fun q => decide (q.id = p0)) = some parentCommit →
      (laneX c.position ≠ laneX parentCommit.position ∨
        ((h.findIdx (fun q => decide (q.id = parentCommit.id)) : ℤ) - (i : ℤ)).natAbs > 1) →
      (c.id, parentCommit.id,
        calculatePath (laneX c.position) (rowY i) (laneX parentCommit.position)
          (rowY (h.findIdx (fun q => decide (q.id = parentCommit.id)))))
        ∈ connectors h) := by
  constructor
  · intro e he
    obtain ⟨j, c, hj, hca⟩ := connectorsFrom_mem_inv h h 0 e he
    rw [Nat.zero_add] at hca
    obtain ⟨h1, h2⟩ := connectorAt_fields h j c e hca
    exact ⟨j, c, hj, h1, h2⟩
  · intro i c parentCommit p0 hc hp hf hcond
    have hca : connectorAt h i c =
        some (c.id, parentCommit.id,
          calculatePath (laneX c.position) (rowY i) (laneX parentCommit.position)
            (rowY (h.findIdx (fun q => decide (q.id = parentCommit.id))))) := by
      simp only [connectorAt, hp, Option.some_bind, hf, if_pos hcond]
    exact connectorsFrom_mem h h 0 i c _ hc (by rw [Nat.zero_add]; exact hca)

/-- Witness for C3's amended theorem: in the scenario-B history the merge
commit's same-lane primary parent at row distance 3 yields a connector in
the scene. -/
theorem connectors_primary_only_witness :
    ("m", "p0",
      calculatePath (laneX mergeTwo.position) (rowY 0) (laneX primaryParent.position)
        (rowY (historyScenarioB.findIdx (fun q => decide (q.id = primaryParent.id)))))
      ∈ connectors historyScenarioB :=
  (connectors_primary_only historyScenarioB).2 0 mergeTwo primaryParent "p0"
    rfl rfl (by decide) (Or.inr (by decide))

/-- The lowest free lane index never exceeds the lane vector's length. -/
theorem lowestFree_le (a : List (Option String)) : lowestFree a ≤ a.length := by
  induction a with
  | nil => exact Nat.le_refl 0
  | cons x rest ih =>
    cases x with
    | none => simp [lowestFree]
    | some v =>
      simp only [lowestFree, List.length_cons]
      exact Nat.succ_le_succ ih

/-- If the lowest free lane is the one past the end, every slot is
occupied. -/
theorem allSome_of_lowestFree (a : List (Option String))
    (h : lowestFree a = a.length) : ∀ x ∈ a, x ≠ none := by
  induction a with
  | nil => simp
  | cons x rest ih =>
    cases x with
    | none => simp [lowestFree] at h
    | some v =>
      simp only [lowestFree, List.length_cons, Nat.succ_inj] at h
      intro y hy
      rcases List.mem_cons.mp hy with rfl | hy
      · simp
      · exact ih h y hy

/-- A lane found by expected-id lookup is in range. -/
theorem findLane_lt (id : String) (a : List (Option String)) :
    ∀ i, findLane id a = some i → i < a.length := by
  induction a with
  | nil => intro i h; simp [findLane] at h
  | cons x rest ih =>
    intro i h
    simp only [findLane] at h
    by_cases hx : x = some id
    · rw [if_pos hx] at h
      injection h with h
      simp only [List.length_cons]
      omega
    · rw [if_neg hx] at h
      cases hf : findLane id rest with
      | none => rw [hf] at h; simp at h
      | some j =>
        rw [hf] at h
        simp at h
        have := ih j hf
        simp only [List.length_cons]
        omega

/-- Writing an in-range slot preserves the vector's length. -/
theorem setSlot_length_of_lt (a : List (Option String)) (i : Nat)
    (v : Option String) (h : i < a.length) : (setSlot a i v).length = a.length := by
  simp [setSlot, h]

/-- Writing the one-past-the-end slot grows the vector by one. -/
theorem setSlot_length_of_ge (a : List (Option String)) (i : Nat)
    (v : Option String) (h : ¬ i < a.length) :
    (setSlot a i v).length = a.length + 1 := by
  simp [setSlot, h]

/-- Writing a slot never shrinks the vector. -/
theorem length_le_setSlot (a : List (Option String)) (i : Nat)
    (v : Option String) : a.length ≤ (setSlot a i v).length := by
  by_cases h : i < a.length <;> simp [setSlot, h]

/-- A slot index at most the length is in range after the write. -/
theorem lt_setSlot_length (a : List (Option String)) (i : Nat)
    (v : Option String) (h : i ≤ a.length) : i < (setSlot a i v).length := by
  by_cases hl : i < a.length
  · rw [setSlot_length_of_lt a i v hl]; exact hl
  · rw [setSlot_length_of_ge a i v hl]; omega

/-- Writing an occupied value preserves full occupancy. -/
theorem allSome_setSlot (a : List (Option String)) (i : Nat) (v : String)
    (ha : ∀ x ∈ a, x ≠ none) : ∀ x ∈ setSlot a i (some v), x ≠ none := by
  intro x hx
  unfold setSlot at hx
  by_cases h : i < a.length
  · rw [if_pos h] at hx
    rcases List.mem_or_eq_of_mem_set hx with hx | rfl
    · exact ha x hx
    · simp
  · rw [if_neg h] at hx
    rcases List.mem_append.mp hx with hx | hx
    · exact ha x hx
    · simp only [List.mem_singleton] at hx
      subst hx
      simp

/-- Opening a lane for a merge parent never shrinks the vector. -/
theorem openParent_length_mono (a : List (Option String)) (p : String) :
    a.length ≤ (openParent a p).length := by
  unfold openParent
  cases findLane p a with
  | some i => exact le_refl _
  | none => exact length_le_setSlot a (lowestFree a) (some p)

/-- Opening a lane for a merge parent preserves full occupancy. -/
theorem allSome_openParent (a : List (Option String)) (p : String)
    (ha : ∀ x ∈ a, x ≠ none) : ∀ x ∈ openParent a p, x ≠ none := by
  unfold openParent
  cases findLane p a with
  | some i => exact ha
  | none => exact allSome_setSlot a (lowestFree a) p ha

/-- Opening a lane either keeps the vector's length or leaves every slot
occupied (it grows only when every slot was already occupied). -/
theorem openParent_invariant (a : List (Option String)) (p : String) :
    (openParent a p).length = a.length ∨ ∀ x ∈ openParent a p, x ≠ none := by
  unfold openParent
  cases findLane p a with
  | some i => exact Or.inl rfl
  | none =>
    by_cases hl : lowestFree a < a.length
    · exact Or.inl (setSlot_length_of_lt a (lowestFree a) (some p) hl)
    · have he : lowestFree a = a.length :=
        Nat.le_antisymm (lowestFree_le a) (Nat.not_lt.mp hl)
      exact Or.inr (allSome_setSlot a (lowestFree a) p (allSome_of_lowestFree a he))

/-- Folding merge-parent opens preserves full occupancy. -/
theorem allSome_opens (ps : List String) : ∀ a : List (Option String),
    (∀ x ∈ a, x ≠ none) → ∀ x ∈ ps.foldl openParent a, x ≠ none := by
  induction ps with
  | nil => intro a ha; simpa using ha
  | cons p ps ih => intro a ha; exact ih (openParent a p) (allSome_openParent a p ha)

/-- Folding merge-parent opens never shrinks the vector. -/
theorem opens_length_mono (ps : List String) : ∀ a : List (Option String),
    a.length ≤ (ps.foldl openParent a).length := by
  induction ps with
  | nil => intro a; simp
  | cons p ps ih =>
    intro a
    exact le_trans (openParent_length_mono a p) (ih (openParent a p))

/-- Folding merge-parent opens either keeps the vector's length or leaves
every slot occupied. -/
theorem opens_invariant (ps : List String) : ∀ a : List (Option String),
    (ps.foldl openParent a).length = a.length ∨
      ∀ x ∈ ps.foldl openParent a, x ≠ none := by
  induction ps with
  | nil => intro a; exact Or.inl rfl
  | cons p ps ih =>
    intro a
    rw [List.foldl_cons]
    rcases openParent_invariant a p with h | h
    · rcases ih (openParent a p) with h2 | h2
      · exact Or.inl (by rw [h2, h])
      · exact Or.inr h2
    · exact Or.inr (allSome_opens ps (openParent a p) h)

/-- A fully occupied vector has as many occupied slots as its length. -/
theorem someCount_eq_length (a : List (Option String))
    (ha : ∀ x ∈ a, x ≠ none) : someCount a = a.length := by
  induction a with
  | nil => rfl
  | cons x rest ih =>
    cases x with
    | none => exact absurd rfl (ha none (by simp))
    | some v =>
      simp only [someCount, List.length_cons]
      rw [ih (fun y hy => ha y (List.mem_cons_of_mem _ hy))]

/-- Occupied-slot counting distributes over append. -/
theorem someCount_append (a b : List (Option String)) :
    someCount (a ++ b) = someCount a + someCount b := by
  induction a with
  | nil => simp [someCount]
  | cons x rest ih =>
    cases x with
    | none =>
      show someCount (none :: (rest ++ b)) = someCount (none :: rest) + someCount b
      simp only [someCount]
      exact ih
    | some v =>
      show someCount (some v :: (rest ++ b)) = someCount (some v :: rest) + someCount b
      simp only [someCount]
      rw [ih]
      omega

/-- An in-range slot of a fully occupied vector reads as occupied. -/
theorem getD_ne_none (a : List (Option String)) (i : Nat) (hi : i < a.length)
    (ha : ∀ x ∈ a, x ≠ none) : a.getD i none ≠ none := by
  rw [List.getD_eq_getElem?_getD, List.getElem?_eq_getElem hi]
  exact ha _ (List.getElem_mem hi)

/-- Reading the freshly appended free slot yields a free slot. -/
theorem getD_append_length (a0 : List (Option String)) :
    (a0 ++ [none]).getD a0.length none = none := by
  rw [List.getD_eq_getElem?_getD, List.getElem?_append_right (le_refl a0.length)]
  simp

/-- The lane chosen for a commit is at most the vector's length. -/
theorem lane_le_length (st : LaneState) (c : CommitRecord) :
    (findLane c.id st.active).getD (lowestFree st.active) ≤ st.active.length := by
  cases h : findLane c.id st.active with
  | none => simpa using lowestFree_le st.active
  | some i => simpa using Nat.le_of_lt (findLane_lt c.id st.active i h)

/-- Core per-row bound: writing a commit's slot and opening its merge
parents keeps the vector's length within the larger of the row's
open-branch count and the previous length. -/
theorem slot_fold_bound (a0 : List (Option String)) (lane : Nat)
    (hd : Option String) (tl : List String) (hlane : lane ≤ a0.length)
    (hall : lane = a0.length → ∀ x ∈ a0, x ≠ none)
    (hroot : hd = none → tl = []) :
    (tl.foldl openParent (setSlot a0 lane hd)).length ≤
      max (someCount (tl.foldl openParent (setSlot a0 lane hd)) +
          (if (tl.foldl openParent (setSlot a0 lane hd)).getD lane none = none
           then 1 else 0))
        a0.length := by
  cases hd with
  | none =>
    have htl := hroot rfl
    subst htl
    simp only [List.foldl_nil]
    by_cases hlt : lane < a0.length
    · rw [setSlot_length_of_lt a0 lane none hlt]
      exact le_max_right _ _
    · have he : lane = a0.length := Nat.le_antisymm hlane (Nat.not_lt.mp hlt)
      have ha0 := hall he
      subst he
      have hset : setSlot a0 a0.length none = a0 ++ [none] := by
        simp [setSlot]
      rw [hset]
      rw [if_pos (getD_append_length a0), someCount_append, List.length_append,
        someCount_eq_length a0 ha0]
      simp only [someCount, List.length_singleton]
      omega
  | some p =>
    by_cases hA2 : ∀ x ∈ tl.foldl openParent (setSlot a0 lane (some p)), x ≠ none
    · have hlt2 : lane < (tl.foldl openParent (setSlot a0 lane (some p))).length :=
        lt_of_lt_of_le (lt_setSlot_length a0 lane (some p) hlane)
          (opens_length_mono tl (setSlot a0 lane (some p)))
      have hg := getD_ne_none _ lane hlt2 hA2
      rw [if_neg hg, Nat.add_zero, someCount_eq_length _ hA2]
      exact le_max_left _ _
    · rcases opens_invariant tl (setSlot a0 lane (some p)) with h | h
      · by_cases hlt : lane < a0.length
        · rw [h, setSlot_length_of_lt a0 lane (some p) hlt]
          exact le_max_right _ _
        · exact absurd (allSome_opens tl _ (allSome_setSlot a0 lane p
            (hall (Nat.le_antisymm hlane (Nat.not_lt.mp hlt))))) hA2
      · exact absurd h hA2

/-- Per-row bound for `laneStep`: the new lane-vector length is at most the
larger of the row's open-branch count and the previous length. -/
theorem laneStep_length_le (st : LaneState) (c : CommitRecord) :
    (laneStep st c).active.length ≤ max (rowWidth st c) st.active.length := by
  by_cases hself : c.id ∈ c.parentIds
  · simp only [laneStep, if_pos hself]
    exact le_max_right _ _
  · have heq : (laneStep st c).active
        = c.parentIds.tail.foldl openParent
            (setSlot st.active ((findLane c.id st.active).getD (lowestFree st.active))
              c.parentIds.head?) := by
      simp only [laneStep, if_neg hself]
    have hw : rowWidth st c
        = someCount ((laneStep st c).active) +
          (if ((laneStep st c).active).getD
              ((findLane c.id st.active).getD (lowestFree st.active)) none = none
           then 1 else 0) := rfl
    rw [hw, heq]
    apply slot_fold_bound
    · exact lane_le_length st c
    · intro he
      cases hfl : findLane c.id st.active with
      | some i =>
        exfalso
        have hi := findLane_lt c.id st.active i hfl
        rw [hfl] at he
        simp at he
        omega
      | none =>
        rw [hfl] at he
        simp at he
        exact allSome_of_lowestFree st.active he
    · intro hnone
      cases hp : c.parentIds with
      | nil => simp
      | cons q qs =>
        rw [hp] at hnone
        simp at hnone

/-- `laneStep` never shrinks the lane vector. -/
theorem laneStep_active_mono (st : LaneState) (c : CommitRecord) :
    st.active.length ≤ (laneStep st c).active.length := by
  by_cases hself : c.id ∈ c.parentIds
  · simp [laneStep, hself]
  · simp only [laneStep, if_neg hself]
    exact le_trans (length_le_setSlot _ _ _) (opens_length_mono _ _)

/-- Folded bound: the final lane-vector length is within the larger of the
maximum row width and the initial length. -/
theorem foldl_length_le (cs : List CommitRecord) : ∀ st : LaneState,
    (cs.foldl laneStep st).active.length ≤ max (maxWidth st cs) st.active.length := by
  induction cs with
  | nil =>
    intro st
    simp only [List.foldl_nil, maxWidth]
    omega
  | cons c cs ih =>
    intro st
    rw [List.foldl_cons]
    have h1 := ih (laneStep st c)
    have h2 := laneStep_length_le st c
    have h3 : maxWidth st (c :: cs)
        = max (rowWidth st c) (maxWidth (laneStep st c) cs) := rfl
    rw [h3]
    omega

/-- Every recorded lane stays below the final lane-vector length. -/
theorem assignment_lanes_lt (cs : List CommitRecord) : ∀ st : LaneState,
    (∀ p ∈ st.assignment, p.2 < st.active.length) →
    ∀ p ∈ (cs.foldl laneStep st).assignment,
      p.2 < (cs.foldl laneStep st).active.length := by
  induction cs with
  | nil => intro st h; simpa using h
  | cons c cs ih =>
    intro st h
    rw [List.foldl_cons]
    apply ih
    intro p hp
    by_cases hself : c.id ∈ c.parentIds
    · simp only [laneStep, if_pos hself] at hp ⊢
      exact h p hp
    · simp only [laneStep, if_neg hself] at hp ⊢
      rcases List.mem_append.mp hp with hp | hp
      · exact lt_of_lt_of_le (h p hp)
          (le_trans (length_le_setSlot _ _ _) (opens_length_mono _ _))
      · simp only [List.mem_singleton] at hp
        subst hp
        exact lt_of_lt_of_le
          (lt_setSlot_length st.active _ c.parentIds.head? (lane_le_length st c))
          (opens_length_mono _ _)

/-- Without self-parent references, the assignment records exactly the
input commits' ids, in order. -/
theorem assignment_ids (cs : List CommitRecord) : ∀ st : LaneState,
    (∀ c ∈ cs, c.id ∉ c.parentIds) →
    (cs.foldl laneStep st).assignment.map Prod.fst
      = st.assignment.map Prod.fst ++ cs.map CommitRecord.id := by
  induction cs with
  | nil => intro st _; simp
  | cons c cs ih =>
    intro st h
    rw [List.foldl_cons, ih (laneStep st c) (fun d hd => h d (List.mem_cons_of_mem _ hd))]
    have hself : c.id ∉ c.parentIds := h c (List.mem_cons_self _ _)
    simp only [laneStep, if_neg hself, List.map_append, List.map_cons]
    simp [List.append_assoc]

/-- Claim C7 (spec-modelled): for every finite commit sequence without
self-parent references, lane assignment — a total function, hence
terminating — assigns every commit exactly one lane (a natural number,
hence ≥ 0) in input order, and the number of distinct lanes used is at
most the maximum number of concurrently open branches at any row. -/
theorem assignLanes_total_and_bounded (cs : List CommitRecord)
    (h : ∀ c ∈ cs, c.id ∉ c.parentIds) :
    (assignLanes cs).assignment.map Prod.fst = cs.map CommitRecord.id ∧
    ((assignLanes cs).assignment.map Prod.snd).toFinset.card
      ≤ maxWidth ⟨[], []⟩ cs := by
  constructor
  · have := assignment_ids cs ⟨[], []⟩ h
    simpa [assignLanes] using this
  · have hlt := assignment_lanes_lt cs ⟨[], []⟩ (by simp)
    have hlen := foldl_length_le cs ⟨[], []⟩
    have hsub : ((assignLanes cs).assignment.map Prod.snd).toFinset ⊆
        Finset.range ((cs.foldl laneStep ⟨[], []⟩).active.length) := by
      intro x hx
      rw [List.mem_toFinset, List.mem_map] at hx
      obtain ⟨p, hp, rfl⟩ := hx
      exact Finset.mem_range.mpr (hlt p hp)
    have hcard := Finset.card_le_card hsub
    rw [Finset.card_range] at hcard
    have hz : (((⟨[], []⟩ : LaneState)).active.length) = 0 := rfl
    rw [hz] at hlen
    omega

/-- Witness for C7: on the concrete merge history the four commits are
assigned in order, and the 2 distinct lanes used stay within the maximum
concurrent width 2. -/
theorem assignLanes_total_and_bounded_witness :
    (assignLanes recList).assignment.map Prod.fst = recList.map CommitRecord.id ∧
    ((assignLanes recList).assignment.map Prod.snd).toFinset.card
      ≤ maxWidth ⟨[], []⟩ recList :=
  assignLanes_total_and_bounded recList (by decide)
